import Mathlib

/- Verification of the fixed-step integration drivers of solver.hpp
   (namespace solver): integrate_one_step and integrate_const.

   Modelling choices for the shallow embedding:
   - Time (time_type_t) is modelled by the rationals.
   - The stepper together with the system is modelled as a pure step
     function do_step : state -> time -> time_delta -> state; quantifying
     over all such functions covers every stepper/system pair.
   - By-reference mutation of state and time becomes returned values.
   - The observer is modelled by recording the list of its invocations,
     each one a (state, time) pair, in call order; any concrete stateful
     observer is a fold over this trace.
   - The while loop of integrate_const takes explicit fuel, because the
     C++ loop need not terminate when time_delta is not positive: the
     value none means the loop has not finished within fuel iterations. -/

namespace Solver

/-- Outcome of a single driver step: the mutated state, the mutated time,
and the observer invocations made during the call, in order. -/
structure StepResult (σ : Type) where
  state : σ
  time : ℚ
  obs : List (σ × ℚ)
deriving DecidableEq

/-- Outcome of a whole integrate_const run: final state, final time, the
returned iteration count, and every observer invocation in order. -/
structure RunResult (σ : Type) where
  state : σ
  time : ℚ
  steps : Nat
  obs : List (σ × ℚ)
deriving DecidableEq

/-- Embedding of integrate_one_step (solver.hpp, lines 14-26): it runs
stepper.do_step(system, state, time, time_delta), then invokes
observer(state, time) on the mutated state, then advances
time += time_delta. -/
def integrate_one_step {σ : Type} (do_step : σ → ℚ → ℚ → σ)
    (state : σ) (time time_delta : ℚ) : StepResult σ :=
  let s := do_step state time time_delta
  { state := s, time := time + time_delta, obs := [(s, time)] }

/-- Embedding of the while loop of integrate_const (solver.hpp, lines
40-43): while time < end_time, call integrate_one_step and increment the
iteration counter. Fuel bounds the number of iterations; none means the
loop was still running when the fuel ran out. -/
def integrate_const_loop {σ : Type} (do_step : σ → ℚ → ℚ → σ)
    (end_time time_delta : ℚ) : Nat → σ → ℚ → Option (RunResult σ)
  | 0, state, time =>
    if time < end_time then none
    else some { state := state, time := time, steps := 0, obs := [] }
  | fuel + 1, state, time =>
    if time < end_time then
      let r := integrate_one_step do_step state time time_delta
      (integrate_const_loop do_step end_time time_delta fuel r.state r.time).map
        (fun q => { q with steps := q.steps + 1, obs := r.obs ++ q.obs })
    else some { state := state, time := time, steps := 0, obs := [] }

/-- Embedding of integrate_const (solver.hpp, lines 28-45): one observer
invocation with the initial state and start_time, then the while loop;
the steps field is the returned iteration count. -/
def integrate_const {σ : Type} (do_step : σ → ℚ → ℚ → σ)
    (fuel : Nat) (state : σ) (start_time end_time time_delta : ℚ) :
    Option (RunResult σ) :=
  (integrate_const_loop do_step end_time time_delta fuel state start_time).map
    (fun q => { q with obs := (state, start_time) :: q.obs })

/-- Number of iterations the integrate_const loop performs for a positive
time_delta: the least n with start + n * delta at or above the end time,
which is the ceiling of (end_time - time) / time_delta, clipped at zero. -/
def nsteps (time end_time time_delta : ℚ) : Nat :=
  (⌈(end_time - time) / time_delta⌉).toNat

/-- State reached after n applications of do_step starting from the given
state and time, advancing time by time_delta each time. -/
def iterState {σ : Type} (do_step : σ → ℚ → ℚ → σ) (time_delta : ℚ) :
    Nat → σ → ℚ → σ
  | 0, state, _ => state
  | n + 1, state, time =>
    iterState do_step time_delta n (do_step state time time_delta)
      (time + time_delta)

/-- Observer trace produced by n iterations of the integrate_const loop:
each entry pairs the state just after do_step with the time before the
step (the code invokes the observer before advancing time). -/
def iterObs {σ : Type} (do_step : σ → ℚ → ℚ → σ) (time_delta : ℚ) :
    Nat → σ → ℚ → List (σ × ℚ)
  | 0, _, _ => []
  | n + 1, state, time =>
    (do_step state time time_delta, time) ::
      iterObs do_step time_delta n (do_step state time time_delta)
        (time + time_delta)

/-- Instrumented stepper that also counts its own invocations, used to
relate the value returned by integrate_const to the number of do_step
calls performed. -/
def countingStep {σ : Type} (do_step : σ → ℚ → ℚ → σ) :
    σ × Nat → ℚ → ℚ → σ × Nat :=
  fun p time time_delta => (do_step p.1 time time_delta, p.2 + 1)

/-- Modelled from the spec: the loop of the integrate_adaptive driver and
the AdaptiveController.do_step it calls are missing from src/ (they live
in the absent numint headers; the examples only call them). Following
spec sections 4.3 and 4.4: the controller is abstracted as a function
ctrl taking the state, the time and the candidate delta and returning
the mutated state, the delta actually applied, and its self-tuned next
candidate delta; the driver, while time < end_time, clamps the candidate
delta so the accepted step does not overshoot end_time, calls the
controller's do_step, advances time by the applied delta, and invokes
the observer with the post-step state and post-step time after every
accepted step. Fuel bounds the iterations as for integrate_const. -/
def integrate_adaptive_loop {σ : Type} (ctrl : σ → ℚ → ℚ → σ × ℚ × ℚ)
    (end_time : ℚ) : Nat → σ → ℚ → ℚ → Option (RunResult σ)
  | 0, state, time, _ =>
    if time < end_time then none
    else some { state := state, time := time, steps := 0, obs := [] }
  | fuel + 1, state, time, delta =>
    if time < end_time then
      let r := ctrl state time (min delta (end_time - time))
      (integrate_adaptive_loop ctrl end_time fuel r.1 (time + r.2.1)
          r.2.2).map
        (fun q => { q with steps := q.steps + 1, obs := (r.1, time + r.2.1) :: q.obs })
    else some { state := state, time := time, steps := 0, obs := [] }

/-- Modelled from the spec: integrate_adaptive (spec section 4.4, missing
from src/) invokes the observer with the initial state, then repeatedly
calls the controller's do_step with a candidate delta, initially the
caller-provided time_delta and thereafter the controller's self-tuned
delta, until time reaches end_time, and returns the accepted-step
count (the steps field). -/
def integrate_adaptive {σ : Type} (ctrl : σ → ℚ → ℚ → σ × ℚ × ℚ)
    (fuel : Nat) (state : σ) (start_time end_time time_delta : ℚ) :
    Option (RunResult σ) :=
  (integrate_adaptive_loop ctrl end_time fuel state start_time
      time_delta).map
    (fun q => { q with obs := (state, start_time) :: q.obs })

/-- Adaptive controller instrumented to count its own do_step
invocations, used to relate the value returned by integrate_adaptive to
the number of controller calls performed. -/
def countingCtrl {σ : Type} (ctrl : σ → ℚ → ℚ → σ × ℚ × ℚ) :
    σ × Nat → ℚ → ℚ → (σ × Nat) × ℚ × ℚ :=
  fun p time delta =>
    (((ctrl p.1 time delta).1, p.2 + 1), (ctrl p.1 time delta).2)

/-- Termination of the integrate_const while loop: some finite fuel
completes the run. -/
def IntegrateConstTerminates {σ : Type} (do_step : σ → ℚ → ℚ → σ)
    (state : σ) (start_time end_time time_delta : ℚ) : Prop :=
  ∃ fuel, (integrate_const do_step fuel state start_time end_time
    time_delta).isSome

theorem iterObs_length {σ : Type} (do_step : σ → ℚ → ℚ → σ) (d : ℚ) :
    ∀ (n : Nat) (s : σ) (t : ℚ), (iterObs do_step d n s t).length = n := by
  intro n
  induction n with
  | zero => intro s t; simp [iterObs]
  | succ k ih => intro s t; simp [iterObs, ih]

theorem iterState_counting {σ : Type} (do_step : σ → ℚ → ℚ → σ) (d : ℚ) :
    ∀ (n : Nat) (s : σ) (c : Nat) (t : ℚ),
      (iterState (countingStep do_step) d n (s, c) t).2 = c + n := by
  intro n
  induction n with
  | zero => intro s c t; simp [iterState]
  | succ k ih =>
    intro s c t
    simp only [iterState, countingStep]
    rw [ih]
    omega

theorem adaptive_loop_counts {σ : Type} (ctrl : σ → ℚ → ℚ → σ × ℚ × ℚ)
    (e : ℚ) :
    ∀ (fuel : Nat) (s : σ) (c : Nat) (t d : ℚ) (r : RunResult (σ × Nat)),
      integrate_adaptive_loop (countingCtrl ctrl) e fuel (s, c) t d =
        some r →
      r.state.2 = c + r.steps := by
  intro fuel
  induction fuel with
  | zero =>
    intro s c t d r h
    by_cases hlt : t < e
    · simp [integrate_adaptive_loop, hlt] at h
    · simp only [integrate_adaptive_loop, if_neg hlt,
        Option.some.injEq] at h
      rw [← h]
      simp
  | succ f ih =>
    intro s c t d r h
    by_cases hlt : t < e
    · simp only [integrate_adaptive_loop, if_pos hlt, countingCtrl] at h
      rcases Option.map_eq_some'.mp h with ⟨q, hq, hr⟩
      have hcount := ih _ _ _ _ _ hq
      rw [← hr]
      show q.state.2 = c + (q.steps + 1)
      omega
    · simp only [integrate_adaptive_loop, if_neg hlt,
        Option.some.injEq] at h
      rw [← h]
      simp

theorem integrate_const_loop_eq {σ : Type} (do_step : σ → ℚ → ℚ → σ)
    (time_delta : ℚ) (hd : 0 < time_delta) :
    ∀ (n fuel : Nat) (state : σ) (time end_time : ℚ),
      nsteps time end_time time_delta = n → n ≤ fuel →
      integrate_const_loop do_step end_time time_delta fuel state time =
        some { state := iterState do_step time_delta n state time,
               time := time + n * time_delta,
               steps := n,
               obs := iterObs do_step time_delta n state time } := by
  intro n
  induction n with
  | zero =>
    intro fuel state time end_time hn _
    have hle : ¬ time < end_time := by
      intro hlt
      have hpos : (0 : ℚ) < (end_time - time) / time_delta :=
        div_pos (by linarith) hd
      have hceil : 0 < ⌈(end_time - time) / time_delta⌉ :=
        Int.lt_ceil.mpr (by exact_mod_cast hpos)
      unfold nsteps at hn
      omega
    cases fuel with
    | zero => simp [integrate_const_loop, hle, iterState, iterObs]
    | succ f => simp [integrate_const_loop, hle, iterState, iterObs]
  | succ k ih =>
    intro fuel state time end_time hn hfuel
    have hceil : ⌈(end_time - time) / time_delta⌉ = (k : ℤ) + 1 := by
      unfold nsteps at hn
      omega
    have hlt : time < end_time := by
      have h0 : ((0 : ℤ) : ℚ) < (end_time - time) / time_delta := by
        refine Int.lt_ceil.mp ?_
        omega
      rcases div_pos_iff.mp (by exact_mod_cast h0) with ⟨h1, _⟩ | ⟨_, h2⟩
      · linarith
      · linarith
    cases fuel with
    | zero => omega
    | succ f =>
      have hrec : nsteps (time + time_delta) end_time time_delta = k := by
        unfold nsteps
        have harith : (end_time - (time + time_delta)) / time_delta
            = (end_time - time) / time_delta - 1 := by
          field_simp
          ring
        rw [harith,
          show (1 : ℚ) = ((1 : ℤ) : ℚ) from by norm_num,
          Int.ceil_sub_int]
        omega
      have hstep := ih f (do_step state time time_delta)
        (time + time_delta) end_time hrec (by omega)
      simp only [integrate_const_loop, if_pos hlt, integrate_one_step]
      rw [hstep]
      have hcast : time + ((k : ℚ) + 1) * time_delta
          = time + time_delta + (k : ℚ) * time_delta := by ring
      push_cast
      rw [hcast]
      simp [iterObs, iterState]

theorem integrate_const_eq {σ : Type} (do_step : σ → ℚ → ℚ → σ)
    (fuel : Nat) (state : σ) (t0 e d : ℚ) (hd : 0 < d)
    (hf : nsteps t0 e d ≤ fuel) :
    integrate_const do_step fuel state t0 e d =
      some { state := iterState do_step d (nsteps t0 e d) state t0,
             time := t0 + (nsteps t0 e d) * d,
             steps := nsteps t0 e d,
             obs := (state, t0) ::
               iterObs do_step d (nsteps t0 e d) state t0 } := by
  unfold integrate_const
  rw [integrate_const_loop_eq do_step d hd _ fuel state t0 e rfl hf]
  rfl

theorem nsteps_cast {t0 e d : ℚ} (hd : 0 < d) (h : t0 < e) :
    ((nsteps t0 e d : ℕ) : ℤ) = ⌈(e - t0) / d⌉ := by
  have hceil : 0 < ⌈(e - t0) / d⌉ :=
    Int.lt_ceil.mpr (by exact_mod_cast div_pos (by linarith) hd)
  unfold nsteps
  omega

theorem final_time_lt {t0 e d : ℚ} (hd : 0 < d) (h : t0 < e) :
    t0 + (nsteps t0 e d : ℚ) * d < e + d := by
  have hc := nsteps_cast hd h
  have h2 : ((⌈(e - t0) / d⌉ : ℤ) : ℚ) < (e - t0) / d + 1 :=
    Int.ceil_lt_add_one _
  have h3 : ((nsteps t0 e d : ℕ) : ℚ) < (e - t0) / d + 1 := by
    rw [show ((nsteps t0 e d : ℕ) : ℚ) = ((⌈(e - t0) / d⌉ : ℤ) : ℚ) from by
      exact_mod_cast hc]
    exact h2
  have h4 : (e - t0) / d * d = e - t0 := div_mul_cancel₀ _ hd.ne'
  nlinarith [mul_lt_mul_of_pos_right h3 hd]

theorem final_time_gt {t0 e d : ℚ} (hd : 0 < d) (h : t0 < e)
    (hnm : ∀ k : ℤ, e - t0 ≠ (k : ℚ) * d) :
    e < t0 + (nsteps t0 e d : ℚ) * d := by
  have hc := nsteps_cast hd h
  have hle : (e - t0) / d ≤ ((⌈(e - t0) / d⌉ : ℤ) : ℚ) := Int.le_ceil _
  have hne : (e - t0) / d ≠ ((⌈(e - t0) / d⌉ : ℤ) : ℚ) := by
    intro hEq
    exact hnm ⌈(e - t0) / d⌉ ((div_eq_iff hd.ne').mp hEq)
  have hlt : (e - t0) / d < ((⌈(e - t0) / d⌉ : ℤ) : ℚ) :=
    lt_of_le_of_ne hle hne
  have h3 : (e - t0) / d < ((nsteps t0 e d : ℕ) : ℚ) := by
    rw [show ((nsteps t0 e d : ℕ) : ℚ) = ((⌈(e - t0) / d⌉ : ℤ) : ℚ) from by
      exact_mod_cast hc]
    exact hlt
  have h4 : (e - t0) / d * d = e - t0 := div_mul_cancel₀ _ hd.ne'
  nlinarith [mul_lt_mul_of_pos_right h3 hd]

theorem integrate_const_loop_zero_delta {σ : Type}
    (do_step : σ → ℚ → ℚ → σ) {t e : ℚ} (h : t < e) :
    ∀ (fuel : Nat) (s : σ),
      integrate_const_loop do_step e 0 fuel s t = none := by
  intro fuel
  induction fuel with
  | zero => intro s; simp [integrate_const_loop, h]
  | succ f ih =>
    intro s
    simp only [integrate_const_loop, if_pos h, integrate_one_step]
    rw [add_zero, ih]
    rfl

theorem nsteps_two_thirds : nsteps 0 1 (2/3) = 2 := by
  have h : ⌈((1 : ℚ) - 0) / (2/3)⌉ = 2 := by
    rw [Int.ceil_eq_iff]
    norm_num
  simp only [nsteps]
  rw [h]
  decide

theorem nsteps_two : nsteps 0 1 2 = 1 := by
  have h : ⌈((1 : ℚ) - 0) / 2⌉ = 1 := by
    rw [Int.ceil_eq_iff]
    norm_num
  simp only [nsteps]
  rw [h]
  decide

/-- C1: the claim states that integrate_one_step passes the post-step
time (the pre-step time plus time_delta) to the observer. The code calls
the observer before advancing time: with do_step x t d = x + 1, state 0,
time 0 and time_delta 1, the observer is invoked exactly once and
receives the post-step state 1 together with the pre-step time 0, while
the post-step time is 0 + 1 = 1 and 0 differs from 0 + 1. -/
theorem observer_receives_pre_step_time :
    integrate_one_step (fun (x : ℚ) _ _ => x + 1) 0 0 1 =
      { state := 1, time := 1, obs := [(1, 0)] } ∧ (0 : ℚ) ≠ 0 + 1 := by
  refine ⟨by norm_num [integrate_one_step], by norm_num⟩

/-- C2 counterexample: with start_time 0, end_time 1 and time_delta 2,
the run of integrate_const finishes at time 2, which exceeds the
requested end time 1, refuting the part of the claim that says the time
never exceeds the final requested end time. -/
theorem time_can_exceed_end_time :
    integrate_const (fun (x : ℚ) _ _ => x) 1 0 0 1 2 =
      some { state := 0, time := 2, steps := 1, obs := [(0, 0), (0, 0)] } ∧
    ¬ ((2 : ℚ) ≤ 1) := by
  refine
    ⟨by norm_num [integrate_const, integrate_const_loop, integrate_one_step],
      by norm_num⟩

/-- C2 amended: after every accepted step the time equals the time
before the step plus time_delta, so after the n steps of a run the time
is start_time plus n times time_delta; the final time can exceed
end_time, but by strictly less than one time_delta, because
integrate_const does not clamp the last step. -/
theorem time_advance_and_overshoot_bound {σ : Type}
    (do_step : σ → ℚ → ℚ → σ) (fuel : Nat) (state : σ) (t0 e d : ℚ)
    (hd : 0 < d) (h : t0 < e) (hf : nsteps t0 e d ≤ fuel) :
    (integrate_const do_step fuel state t0 e d).map RunResult.time =
      some (t0 + (nsteps t0 e d : ℚ) * d) ∧
    t0 + (nsteps t0 e d : ℚ) * d < e + d := by
  refine ⟨?_, final_time_lt hd h⟩
  rw [integrate_const_eq do_step fuel state t0 e d hd hf]
  rfl

theorem time_advance_and_overshoot_bound_witness :
    (0 : ℚ) < 2/3 ∧ (0 : ℚ) < 1 ∧
    ((integrate_const (fun (x : ℚ) _ _ => x) 2 0 0 1 (2/3)).map
        RunResult.time = some (0 + (nsteps 0 1 (2/3) : ℚ) * (2/3)) ∧
      0 + (nsteps 0 1 (2/3) : ℚ) * (2/3) < 1 + 2/3) :=
  ⟨by norm_num, by norm_num,
    time_advance_and_overshoot_bound (fun (x : ℚ) _ _ => x) 2 0 0 1 (2/3)
      (by norm_num) (by norm_num) (by simp [ nsteps_two_thirds])⟩

/-- C3: integrate_const does not clamp its final step. For every
start_time < end_time and positive time_delta such that
end_time - start_time is not an integer multiple of time_delta, the time
after the loop finishes is strictly greater than end_time. -/
theorem integrate_const_overshoots {σ : Type} (do_step : σ → ℚ → ℚ → σ)
    (fuel : Nat) (state : σ) (t0 e d : ℚ)
    (hd : 0 < d) (h : t0 < e)
    (hnm : ∀ k : ℤ, e - t0 ≠ (k : ℚ) * d)
    (hf : nsteps t0 e d ≤ fuel) :
    (integrate_const do_step fuel state t0 e d).map RunResult.time =
      some (t0 + (nsteps t0 e d : ℚ) * d) ∧
    e < t0 + (nsteps t0 e d : ℚ) * d := by
  refine ⟨?_, final_time_gt hd h hnm⟩
  rw [integrate_const_eq do_step fuel state t0 e d hd hf]
  rfl

theorem integrate_const_overshoots_witness :
    (0 : ℚ) < 2 ∧ (0 : ℚ) < 1 ∧
    ((integrate_const (fun (x : ℚ) _ _ => x) 1 0 0 1 2).map
        RunResult.time = some (0 + (nsteps 0 1 2 : ℚ) * 2) ∧
      (1 : ℚ) < 0 + (nsteps 0 1 2 : ℚ) * 2) :=
  ⟨by norm_num, by norm_num,
    integrate_const_overshoots (fun (x : ℚ) _ _ => x) 1 0 0 1 2
      (by norm_num) (by norm_num)
      (by
        intro k hk
        have h2 : (1 : ℚ) = (k : ℚ) * 2 := by linarith
        have h3 : (1 : ℤ) = k * 2 := by exact_mod_cast h2
        omega)
      (by simp [ nsteps_two])⟩

/-- C4: for start_time < end_time and positive time_delta,
integrate_const invokes the observer exactly
1 + ceil((end_time - start_time) / time_delta) times, counting the
initial invocation. -/
theorem observer_call_count {σ : Type} (do_step : σ → ℚ → ℚ → σ)
    (fuel : Nat) (state : σ) (t0 e d : ℚ)
    (hd : 0 < d) (h : t0 < e) (hf : nsteps t0 e d ≤ fuel) :
    (integrate_const do_step fuel state t0 e d).map
        (fun r => (r.obs.length : ℤ)) =
      some (1 + ⌈(e - t0) / d⌉) := by
  have hc := nsteps_cast hd h
  rw [integrate_const_eq do_step fuel state t0 e d hd hf]
  simp [iterObs_length]
  omega

theorem observer_call_count_witness :
    (0 : ℚ) < 2/3 ∧ (0 : ℚ) < 1 ∧
    (integrate_const (fun (x : ℚ) _ _ => x) 2 0 0 1 (2/3)).map
        (fun r => (r.obs.length : ℤ)) =
      some (1 + ⌈((1 : ℚ) - 0) / (2/3)⌉) :=
  ⟨by norm_num, by norm_num,
    observer_call_count (fun (x : ℚ) _ _ => x) 2 0 0 1 (2/3)
      (by norm_num) (by norm_num) (by simp [ nsteps_two_thirds])⟩

/-- C5 counterexample: integrate_one_step is declared void in the code,
so it returns no step count. Its entire outcome at a concrete input is
the mutated state, the mutated time and the single observer invocation,
with no count among them. -/
theorem integrate_one_step_returns_no_count :
    integrate_one_step (fun (x : ℚ) _ _ => x * 2) 3 1 2 =
      { state := 6, time := 3, obs := [(6, 1)] } := by
  norm_num [integrate_one_step]

/-- C5 amended: integrate_const and integrate_adaptive each return the
count of steps taken: instrumenting the fixed stepper so that it counts
its own calls, the final counter of an integrate_const run equals the
returned steps value (the number of do_step invocations), and
instrumenting the adaptive controller likewise, every completed
integrate_adaptive run returns a steps value equal to the number of
controller do_step invocations performed. integrate_one_step itself is
void and returns nothing beyond the mutated state and time. -/
theorem step_count_equals_do_step_calls {σ : Type}
    (do_step : σ → ℚ → ℚ → σ) (ctrl : σ → ℚ → ℚ → σ × ℚ × ℚ)
    (fuel fuel2 : Nat) (state s2 : σ) (t0 e d t2 e2 d2 : ℚ)
    (hd : 0 < d) (hf : nsteps t0 e d ≤ fuel) :
    (integrate_const (countingStep do_step) fuel (state, 0) t0 e d).map
        (fun r => (r.state.2, r.steps)) =
      some (nsteps t0 e d, nsteps t0 e d) ∧
    (integrate_adaptive (countingCtrl ctrl) fuel2 (s2, 0) t2 e2 d2).map
        (fun r => r.state.2) =
      (integrate_adaptive (countingCtrl ctrl) fuel2 (s2, 0) t2 e2 d2).map
        (fun r => r.steps) := by
  constructor
  · rw [integrate_const_eq (countingStep do_step) fuel (state, 0) t0 e d
      hd hf]
    simp [iterState_counting]
  · cases hcase : integrate_adaptive_loop (countingCtrl ctrl) e2 fuel2
        (s2, 0) t2 d2 with
    | none => simp [integrate_adaptive, hcase]
    | some q =>
      have hcount := adaptive_loop_counts ctrl e2 fuel2 s2 0 t2 d2 q hcase
      simp [integrate_adaptive, hcase]
      omega

theorem step_count_equals_do_step_calls_witness :
    (0 : ℚ) < 2/3 ∧
    ((integrate_const (countingStep fun (x : ℚ) _ _ => x) 2 ((0 : ℚ), 0)
        0 1 (2/3)).map (fun r => (r.state.2, r.steps)) =
      some (nsteps 0 1 (2/3), nsteps 0 1 (2/3)) ∧
    (integrate_adaptive (countingCtrl fun (x : ℚ) _ dd => (x, dd, dd)) 1
        ((0 : ℚ), 0) 0 1 1).map (fun r => r.state.2) =
      (integrate_adaptive (countingCtrl fun (x : ℚ) _ dd => (x, dd, dd)) 1
        ((0 : ℚ), 0) 0 1 1).map (fun r => r.steps)) :=
  ⟨by norm_num,
    step_count_equals_do_step_calls (fun (x : ℚ) _ _ => x)
      (fun (x : ℚ) _ dd => (x, dd, dd)) 2 1 0 0 0 1 (2/3) 0 1 1
      (by norm_num) (by simp [ nsteps_two_thirds])⟩

/-- C6: integrate_const invokes the observer exactly once with the
initial state and start_time before any stepping occurs, then the while
loop runs integrate_one_step while time < end_time, contributing one
further observation per iteration: the whole trace is the initial pair
followed by the per-step observations, and the loop runs nsteps times. -/
theorem integrate_const_initial_observation_then_loop {σ : Type}
    (do_step : σ → ℚ → ℚ → σ) (fuel : Nat) (state : σ) (t0 e d : ℚ)
    (hd : 0 < d) (hf : nsteps t0 e d ≤ fuel) :
    (integrate_const do_step fuel state t0 e d).map RunResult.obs =
      some ((state, t0) :: iterObs do_step d (nsteps t0 e d) state t0) ∧
    (integrate_const do_step fuel state t0 e d).map RunResult.steps =
      some (nsteps t0 e d) := by
  rw [integrate_const_eq do_step fuel state t0 e d hd hf]
  exact ⟨rfl, rfl⟩

theorem integrate_const_initial_observation_then_loop_witness :
    (0 : ℚ) < 2/3 ∧
    ((integrate_const (fun (x : ℚ) _ _ => x) 2 0 0 1 (2/3)).map
        RunResult.obs =
      some (((0 : ℚ), (0 : ℚ)) ::
        iterObs (fun (x : ℚ) _ _ => x) (2/3) (nsteps 0 1 (2/3)) 0 0) ∧
      (integrate_const (fun (x : ℚ) _ _ => x) 2 0 0 1 (2/3)).map
        RunResult.steps = some (nsteps 0 1 (2/3))) :=
  ⟨by norm_num,
    integrate_const_initial_observation_then_loop (fun (x : ℚ) _ _ => x)
      2 0 0 1 (2/3) (by norm_num) (by simp [ nsteps_two_thirds])⟩

/-- C7: time is strictly monotonically increasing across accepted steps.
For a positive time_delta, the time after integrate_one_step equals the
time before the step plus time_delta, hence strictly exceeds the time
before the step. -/
theorem time_strictly_increasing {σ : Type} (do_step : σ → ℚ → ℚ → σ)
    (state : σ) (t d : ℚ) (hd : 0 < d) :
    (integrate_one_step do_step state t d).time = t + d ∧
    t < (integrate_one_step do_step state t d).time := by
  refine ⟨rfl, ?_⟩
  show t < t + d
  linarith

theorem time_strictly_increasing_witness :
    (0 : ℚ) < 1/2 ∧
    ((integrate_one_step (fun (x : ℚ) _ _ => x) 0 3 (1/2)).time
        = 3 + 1/2 ∧
      (3 : ℚ) < (integrate_one_step (fun (x : ℚ) _ _ => x) 0 3 (1/2)).time) :=
  ⟨by norm_num,
    time_strictly_increasing (fun (x : ℚ) _ _ => x) 0 3 (1/2) (by norm_num)⟩

/-- C8 counterexample: with time_delta 0, start_time 0 and end_time 1,
the while loop of integrate_const never terminates: no amount of fuel
completes the run, refuting termination for every time_delta. -/
theorem integrate_const_diverges_zero_delta :
    ¬ IntegrateConstTerminates (fun (x : ℚ) _ _ => x) 0 0 1 0 := by
  rintro ⟨fuel, h⟩
  rw [integrate_const,
    integrate_const_loop_zero_delta (fun (x : ℚ) _ _ => x)
      (by norm_num) fuel 0] at h
  simp at h

/-- C8 amended: the integrate_const loop terminates for every system,
state, start_time and end_time whenever time_delta is positive (finitely
many iterations reach or pass the requested end time); with a
non-positive time_delta and start_time < end_time the loop never
exits. -/
theorem integrate_const_terminates_pos_delta {σ : Type}
    (do_step : σ → ℚ → ℚ → σ) (state : σ) (t0 e d : ℚ) (hd : 0 < d) :
    IntegrateConstTerminates do_step state t0 e d :=
  ⟨nsteps t0 e d, by
    rw [integrate_const_eq do_step (nsteps t0 e d) state t0 e d hd le_rfl]
    rfl⟩

theorem integrate_const_terminates_pos_delta_witness :
    (0 : ℚ) < 1/2 ∧
    IntegrateConstTerminates (fun (x : ℚ) _ _ => x) 0 0 1 (1/2) :=
  ⟨by norm_num,
    integrate_const_terminates_pos_delta (fun (x : ℚ) _ _ => x) 0 0 1
      (1/2) (by norm_num)⟩

/-- C9: integration is deterministic. Two runs of integrate_const (or of
integrate_one_step) with identical step function, identical initial
state, identical time bounds and identical step size produce identical
final state, final time, return value and observer trace. -/
theorem integrate_const_deterministic {σ : Type}
    (do_step : σ → ℚ → ℚ → σ) (fuel : Nat) (s1 s2 : σ)
    (t1 t2 e1 e2 d1 d2 : ℚ)
    (hs : s1 = s2) (ht : t1 = t2) (he : e1 = e2) (hd : d1 = d2) :
    integrate_const do_step fuel s1 t1 e1 d1 =
      integrate_const do_step fuel s2 t2 e2 d2 ∧
    integrate_one_step do_step s1 t1 d1 =
      integrate_one_step do_step s2 t2 d2 := by
  subst hs
  subst ht
  subst he
  subst hd
  exact ⟨rfl, rfl⟩

theorem integrate_const_deterministic_witness :
    integrate_const (fun (x : ℚ) _ _ => x) 1 0 0 1 1 =
      integrate_const (fun (x : ℚ) _ _ => x) 1 0 0 1 1 ∧
    integrate_one_step (fun (x : ℚ) _ _ => x) 0 0 1 =
      integrate_one_step (fun (x : ℚ) _ _ => x) 0 0 1 :=
  integrate_const_deterministic (fun (x : ℚ) _ _ => x) 1 0 0 0 0 1 1 1 1
    rfl rfl rfl rfl

/-- C10: whenever start_time is at or above end_time, integrate_const
returns the count 0, leaves the state unchanged, never calls do_step
(the result does not depend on the step function or on time_delta), and
still invokes the observer exactly once, with the initial state and
start_time. -/
theorem integrate_const_degenerate_interval {σ : Type}
    (do_step : σ → ℚ → ℚ → σ) (fuel : Nat) (state : σ) (t0 e d : ℚ)
    (h : e ≤ t0) :
    integrate_const do_step fuel state t0 e d =
      some { state := state, time := t0, steps := 0,
             obs := [(state, t0)] } := by
  have hn : ¬ t0 < e := not_lt.mpr h
  cases fuel with
  | zero => simp [integrate_const, integrate_const_loop, hn]
  | succ f => simp [integrate_const, integrate_const_loop, hn]

theorem integrate_const_degenerate_interval_witness :
    (1 : ℚ) ≤ 2 ∧
    integrate_const (fun (x : ℚ) _ _ => x + 1) 5 0 2 1 (1/2) =
      some { state := 0, time := 2, steps := 0, obs := [(0, 2)] } :=
  ⟨by norm_num,
    integrate_const_degenerate_interval (fun (x : ℚ) _ _ => x + 1) 5 0 2 1
      (1/2) (by norm_num)⟩

end Solver
